import Mathlib

/-!
Verification of the editing core of `eminent` (src/main.rs): a text buffer
(`xi_rope::Rope`) paired with a `(byte_column, line)` cursor, driven by
`EditorCommand`s.  The buffer is embedded as a `List Char` (a rope is an
efficient representation of exactly this sequence); all offsets are UTF-8
byte offsets computed with `Char.utf8Size`, matching the Rust code's byte
addressing.
-/

namespace Eminent

/-- Total UTF-8 byte length of a character sequence (`Rope::len`). -/
def utf8Len (l : List Char) : Nat := (l.map Char.utf8Size).sum

/-- Embeds `Rope::is_codepoint_boundary`: `o` is a byte offset that does not split
the UTF-8 encoding of any character (offset `0` and the total length are
boundaries). -/
def is_codepoint_boundary : List Char → Nat → Bool
  | _, 0 => true
  | [], _ + 1 => false
  | c :: cs, o + 1 =>
    if o + 1 < c.utf8Size then false
    else is_codepoint_boundary cs (o + 1 - c.utf8Size)

/-- The characters wholly contained in the first `o` bytes (for a boundary
offset `o`, the prefix of byte length `o`). -/
def takeBytes : List Char → Nat → List Char
  | _, 0 => []
  | [], _ + 1 => []
  | c :: cs, o + 1 =>
    if o + 1 < c.utf8Size then []
    else c :: takeBytes cs (o + 1 - c.utf8Size)

/-- The characters after the first `o` bytes (for a boundary offset `o`, the
suffix starting at byte `o`).  Models `Rope::slice_to_cow(o..)`. -/
def dropBytes : List Char → Nat → List Char
  | l, 0 => l
  | [], _ + 1 => []
  | c :: cs, o + 1 => dropBytes cs (o + 1 - c.utf8Size)

/-- The UTF-8 encoding of one character as a list of byte values. -/
def charUtf8 (c : Char) : List Nat :=
  let v := c.toNat
  if c.utf8Size = 1 then [v]
  else if c.utf8Size = 2 then [0xC0 ||| (v >>> 6), 0x80 ||| (v &&& 0x3F)]
  else if c.utf8Size = 3 then
    [0xE0 ||| (v >>> 12), 0x80 ||| ((v >>> 6) &&& 0x3F), 0x80 ||| (v &&& 0x3F)]
  else
    [0xF0 ||| (v >>> 18), 0x80 ||| ((v >>> 12) &&& 0x3F),
     0x80 ||| ((v >>> 6) &&& 0x3F), 0x80 ||| (v &&& 0x3F)]

/-- The UTF-8 encoding of the whole buffer, byte by byte. -/
def utf8Bytes (l : List Char) : List Nat := l.flatMap charUtf8

/-- Number of line breaks in the buffer: `Rope::measure::<LinesMetric>()`. -/
def measureLines (l : List Char) : Nat := l.count '\n'

/-- Number of logical lines: line breaks plus one (spec §4.1 `line_count`). -/
def line_count (l : List Char) : Nat := measureLines l + 1

/-- Embeds `Rope::offset_of_line`: byte offset at which line `y` begins, i.e. the
offset just after the `y`-th `'\n'`; `y = measureLines l + 1` yields the
total length (the `Ordering::Equal` arm of the Rust library; larger `y`
panics there and is never reached by the program). -/
def offset_of_line : List Char → Nat → Nat
  | _, 0 => 0
  | [], _ + 1 => 0
  | c :: cs, y + 1 =>
    c.utf8Size + (if c = '\n' then offset_of_line cs y else offset_of_line cs (y + 1))

/-- Embeds `Rope::line_of_offset`: number of `'\n'` characters strictly before byte
offset `o`. -/
def line_of_offset : List Char → Nat → Nat
  | _, 0 => 0
  | [], _ + 1 => 0
  | c :: cs, o + 1 =>
    (if c = '\n' then 1 else 0) + line_of_offset cs (o + 1 - c.utf8Size)

/-- Content of the line starting at the current position: everything up to
the next `'\n'` (exclusive) or the end of the buffer. -/
def takeLine (l : List Char) : List Char := l.takeWhile (fun c => c != '\n')

/-- Byte length of the first line of the slice starting at byte `o`:
`buffer.lines(o..).next().map(|line| line.len()).unwrap_or(0)`. -/
def lineLenFrom (l : List Char) (o : Nat) : Nat := utf8Len (takeLine (dropBytes l o))

/-- Content of logical line `y` (without its terminator). -/
def lineContent (l : List Char) (y : Nat) : List Char :=
  takeLine (dropBytes l (offset_of_line l y))

/-- Modelled from the spec: the program's grapheme segmentation lives in the
external `xi_rope`/`unicode-segmentation` libraries, not in this repository.
Per spec §4.1 and the glossary, a grapheme cluster is a base character
together with the following combining marks, so a combining mark never
starts a cluster.  We take the combining-diacritical block U+0300–U+036F as
the combining marks. -/
def isCombining (c : Char) : Bool := 0x300 ≤ c.toNat && c.toNat ≤ 0x36F

/-- First character at byte offset `o` (if any). -/
def charAtByte (l : List Char) (o : Nat) : Option Char := (dropBytes l o).head?

/-- Modelled from the spec: `o` is a grapheme-cluster boundary iff it is a
codepoint boundary and is not immediately followed by a combining mark
(offset `0` and the end of the buffer are always boundaries). -/
def isGraphemeBoundary (l : List Char) (o : Nat) : Bool :=
  is_codepoint_boundary l o &&
    (o == 0 || !((charAtByte l o).any isCombining))

/-- Embeds `Rope::prev_grapheme_offset`: the largest grapheme boundary strictly
below `o`, `none` iff `o = 0`. -/
def prev_grapheme_offset (l : List Char) : Nat → Option Nat
  | 0 => none
  | o + 1 => if isGraphemeBoundary l o then some o else prev_grapheme_offset l o

/-- Search upward from `o` for the first grapheme boundary, with fuel. -/
def nextGraphemeAux (l : List Char) : Nat → Nat → Option Nat
  | 0, _ => none
  | fuel + 1, o => if isGraphemeBoundary l o then some o else nextGraphemeAux l fuel (o + 1)

/-- Embeds `Rope::next_grapheme_offset`: the smallest grapheme boundary strictly
above `o`, `none` iff `o ≥ utf8Len l`. -/
def next_grapheme_offset (l : List Char) (o : Nat) : Option Nat :=
  nextGraphemeAux l (utf8Len l - o) (o + 1)

/-- Embeds `Rope::prev_codepoint_offset`: largest codepoint boundary strictly
below `o`. -/
def prev_codepoint_offset (l : List Char) : Nat → Option Nat
  | 0 => none
  | o + 1 => if is_codepoint_boundary l o then some o else prev_codepoint_offset l o

/-- Search upward from `o` for the first codepoint boundary, with fuel. -/
def nextCodepointAux (l : List Char) : Nat → Nat → Option Nat
  | 0, _ => none
  | fuel + 1, o => if is_codepoint_boundary l o then some o else nextCodepointAux l fuel (o + 1)

/-- Embeds `Rope::next_codepoint_offset`: smallest codepoint boundary strictly
above `o`. -/
def next_codepoint_offset (l : List Char) (o : Nat) : Option Nat :=
  nextCodepointAux l (utf8Len l - o) (o + 1)

/-- Embeds `Rope::at_or_prev_codepoint_boundary`. -/
def at_or_prev_codepoint_boundary (l : List Char) (o : Nat) : Option Nat :=
  if is_codepoint_boundary l o then some o else prev_codepoint_offset l o

/-- Embeds `Rope::at_or_next_codepoint_boundary`. -/
def at_or_next_codepoint_boundary (l : List Char) (o : Nat) : Option Nat :=
  if is_codepoint_boundary l o then some o else next_codepoint_offset l o

/-- Embeds `Rope::edit(start..fin, repl)`: replace the byte range `[start, fin)`
by `repl`. -/
def edit (l : List Char) (start fin : Nat) (repl : List Char) : List Char :=
  takeBytes l start ++ repl ++ dropBytes l fin

/-- The commands of `main.rs` (`enum EditorCommand`). -/
inductive EditorCommand where
  | MoveLeft
  | MoveRight
  | MoveUp
  | MoveDown
  | Insert (ch : Char)
  | InsertNewline
  | Remove
deriving DecidableEq

/-- Embeds `struct BufferState`: the cursor is `(byte_column, line_index)` exactly
as the Rust `(usize, usize)` pair. -/
structure BufferState where
  cursor : Nat × Nat
  buffer : List Char
deriving DecidableEq

/-- Embeds `BufferState::new()`. -/
def BufferState.new : BufferState := ⟨(0, 0), []⟩

/-- Embeds `BufferState::get_offset`: absolute byte offset of the cursor. -/
def get_offset (s : BufferState) : Nat :=
  offset_of_line s.buffer s.cursor.2 + s.cursor.1

/-- Embeds `BufferState::offset_to_cursor`. -/
def offset_to_cursor (l : List Char) (o : Nat) : Nat × Nat :=
  (o - offset_of_line l (line_of_offset l o), line_of_offset l o)

/-- Embeds `BufferState::process`, arm by arm.  The two `unwrap`/`unwrap_or`
fallbacks on the codepoint-boundary alignments use the same default as the
Rust code (`unwrap_or(0)`); the `unwrap()` in the `MoveDown` arm never sees
`none` because the total length is always a boundary. -/
def process (s : BufferState) : EditorCommand → BufferState
  | .MoveLeft =>
    let offset := get_offset s
    match prev_grapheme_offset s.buffer offset with
    | some newOffset => { s with cursor := offset_to_cursor s.buffer newOffset }
    | none => { s with cursor := (0, s.cursor.2) }
  | .MoveRight =>
    let offset := get_offset s
    match next_grapheme_offset s.buffer offset with
    | some newOffset => { s with cursor := offset_to_cursor s.buffer newOffset }
    | none => s
  | .MoveUp =>
    if s.cursor.2 = 0 then
      { s with cursor := (0, 0) }
    else
      let startOfLine := offset_of_line s.buffer (s.cursor.2 - 1)
      let lineLength := lineLenFrom s.buffer startOfLine
      let newOffset := startOfLine + min s.cursor.1 lineLength
      let aligned := (at_or_prev_codepoint_boundary s.buffer newOffset).getD 0
      { s with cursor := offset_to_cursor s.buffer aligned }
  | .MoveDown =>
    let lines := measureLines s.buffer
    if lines = 0 ∨ s.cursor.2 = lines - 1 then
      let offset := (at_or_next_codepoint_boundary s.buffer (utf8Len s.buffer)).getD 0
      { s with cursor := offset_to_cursor s.buffer offset }
    else
      let startOfLine := offset_of_line s.buffer (s.cursor.2 + 1)
      let lineLength := lineLenFrom s.buffer startOfLine
      let newOffset := startOfLine + min s.cursor.1 lineLength
      let aligned := (at_or_prev_codepoint_boundary s.buffer newOffset).getD 0
      { s with cursor := offset_to_cursor s.buffer aligned }
  | .Insert ch =>
    let offset := get_offset s
    { cursor := (s.cursor.1 + ch.utf8Size, s.cursor.2),
      buffer := edit s.buffer offset offset [ch] }
  | .InsertNewline =>
    let offset := get_offset s
    { cursor := (0, s.cursor.2 + 1),
      buffer := edit s.buffer offset offset ['\n'] }
  | .Remove =>
    let offset := get_offset s
    if offset = 0 then s
    else
      let start := (prev_grapheme_offset s.buffer offset).getD 0
      let buffer' := edit s.buffer start offset []
      { cursor := offset_to_cursor buffer' start, buffer := buffer' }

/-- Fold a command sequence from the initial state. -/
def processAll (s : BufferState) (cmds : List EditorCommand) : BufferState :=
  cmds.foldl process s

/-- The scan loop of `BufferState::get_cursor`: walk `char_indices`,
returning the enumeration index once the byte offset `xb` is hit, and
`last_offset.map(|x| x + 1).unwrap_or(0)` (which is just the number of
characters walked) otherwise. -/
def displayCountAux : List Char → Nat → Nat → Nat → Nat
  | [], _, _, i => i
  | c :: cs, xb, off, i =>
    if off = xb then i else displayCountAux cs xb (off + c.utf8Size) (i + 1)

/-- Embeds `BufferState::get_cursor`.  Note the source computes
`start_offset = line_of_offset(cursor.1)` — it feeds the *line index* to
`line_of_offset`, which expects a byte offset — and then scans
`slice_to_cow(start_offset..)`, the suffix of the whole document. -/
def get_cursor (s : BufferState) : Nat × Nat :=
  (displayCountAux (dropBytes s.buffer (line_of_offset s.buffer s.cursor.2))
      s.cursor.1 0 0,
   s.cursor.2)

/-- Modelled from the spec (§4.2 display-column query, the code for which is
the buggy `get_cursor`): rescan the *current line's content from its start*,
counting characters until the stored byte offset is reached. -/
def spec_display_cursor (s : BufferState) : Nat × Nat :=
  (displayCountAux (lineContent s.buffer s.cursor.2) s.cursor.1 0 0, s.cursor.2)

/-- The cursor invariant of spec §3: the line index is below
`max 1 (line_count)` and the column is a valid UTF-8 boundary within the
byte length of the line's content. -/
def valid_cursor (l : List Char) (cur : Nat × Nat) : Bool :=
  decide (cur.2 < max 1 (line_count l)) &&
    decide (cur.1 ≤ utf8Len (lineContent l cur.2)) &&
    is_codepoint_boundary (lineContent l cur.2) cur.1

/-- A command whose `Insert` payload is not a line break (spec §6: `Insert`
carries printable characters; `'\n'` arrives only as `InsertNewline`). -/
def goodCmd : EditorCommand → Bool
  | .Insert ch => ch != '\n'
  | _ => true

/-- Document content split into lines, as the rendering layer reads it. -/
def bufferLines (l : List Char) : List (List Char) := l.splitOn '\n'

/-! ### Byte-length and codepoint-boundary lemmas -/

theorem utf8Len_nil : utf8Len [] = 0 := rfl

theorem utf8Len_cons (c : Char) (l : List Char) :
    utf8Len (c :: l) = c.utf8Size + utf8Len l := by
  simp [utf8Len]

theorem utf8Len_append (a b : List Char) :
    utf8Len (a ++ b) = utf8Len a + utf8Len b := by
  simp [utf8Len]

theorem cpb_zero (l : List Char) : is_codepoint_boundary l 0 = true := by
  cases l <;> rfl

theorem cpb_len (l : List Char) : is_codepoint_boundary l (utf8Len l) = true := by
  induction l with
  | nil => rfl
  | cons c cs ih =>
    have hc := Char.utf8Size_pos c
    rw [utf8Len_cons]
    rcases n : c.utf8Size + utf8Len cs with _ | m
    · omega
    · simp only [is_codepoint_boundary]
      rw [if_neg (by omega)]
      have : m + 1 - c.utf8Size = utf8Len cs := by omega
      rw [this]
      exact ih

theorem cpb_le {l : List Char} {o : Nat} (h : is_codepoint_boundary l o = true) :
    o ≤ utf8Len l := by
  induction l generalizing o with
  | nil =>
    rcases o with _ | o
    · exact Nat.le_refl 0
    · simp [is_codepoint_boundary] at h
  | cons c cs ih =>
    rcases o with _ | o
    · exact Nat.zero_le _
    · simp only [is_codepoint_boundary] at h
      split at h
      · exact absurd h (by simp)
      · have := ih h
        rw [utf8Len_cons]
        omega

theorem cpb_append_right (a b : List Char) (k : Nat) :
    is_codepoint_boundary (a ++ b) (utf8Len a + k) = is_codepoint_boundary b k := by
  induction a with
  | nil => simp [utf8Len_nil]
  | cons c cs ih =>
    have hc := Char.utf8Size_pos c
    rw [utf8Len_cons, List.cons_append]
    rcases n : c.utf8Size + utf8Len cs + k with _ | m
    · omega
    · simp only [is_codepoint_boundary]
      rw [if_neg (by omega)]
      have : m + 1 - c.utf8Size = utf8Len cs + k := by omega
      rw [this]
      exact ih

theorem cpb_append_of_left {a : List Char} (b : List Char) {k : Nat}
    (h : is_codepoint_boundary a k = true) :
    is_codepoint_boundary (a ++ b) k = true := by
  induction a generalizing k with
  | nil =>
    rcases o : k with _ | m
    · exact cpb_zero b
    · rw [o] at h; simp [is_codepoint_boundary] at h
  | cons c cs ih =>
    rcases o : k with _ | m
    · exact cpb_zero _
    · rw [o] at h
      simp only [is_codepoint_boundary] at h ⊢
      split at h
      · exact absurd h (by simp)
      · rw [if_neg (by assumption)]
        exact ih h

theorem cpb_of_append {a b : List Char} {k : Nat} (hk : k ≤ utf8Len a)
    (h : is_codepoint_boundary (a ++ b) k = true) :
    is_codepoint_boundary a k = true := by
  induction a generalizing k with
  | nil =>
    rw [utf8Len_nil] at hk
    have : k = 0 := Nat.le_zero.mp hk
    rw [this]; exact cpb_zero []
  | cons c cs ih =>
    rcases o : k with _ | m
    · exact cpb_zero _
    · rw [o] at h hk
      rw [utf8Len_cons] at hk
      simp only [is_codepoint_boundary, List.cons_append] at h ⊢
      split at h
      · exact absurd h (by simp)
      · rw [if_neg (by assumption)]
        have hle : m + 1 - c.utf8Size ≤ utf8Len cs := by omega
        exact ih hle h

theorem cpb_cons_inside {c : Char} (cs : List Char) {k : Nat} (h0 : 0 < k)
    (hk : k < c.utf8Size) : is_codepoint_boundary (c :: cs) k = false := by
  rcases o : k with _ | m
  · omega
  · rw [o] at hk
    simp only [is_codepoint_boundary]
    rw [if_pos hk]

/-! ### takeBytes / dropBytes lemmas -/

theorem takeBytes_zero (l : List Char) : takeBytes l 0 = [] := by cases l <;> rfl

theorem dropBytes_zero (l : List Char) : dropBytes l 0 = l := by cases l <;> rfl

theorem takeBytes_append_add (a b : List Char) (k : Nat) :
    takeBytes (a ++ b) (utf8Len a + k) = a ++ takeBytes b k := by
  induction a with
  | nil => simp [utf8Len_nil]
  | cons c cs ih =>
    have hc := Char.utf8Size_pos c
    rw [utf8Len_cons, List.cons_append]
    rcases n : c.utf8Size + utf8Len cs + k with _ | m
    · omega
    · simp only [takeBytes]
      rw [if_neg (by omega)]
      have : m + 1 - c.utf8Size = utf8Len cs + k := by omega
      rw [this, ih, List.cons_append]

theorem dropBytes_append_add (a b : List Char) (k : Nat) :
    dropBytes (a ++ b) (utf8Len a + k) = dropBytes b k := by
  induction a with
  | nil => simp [utf8Len_nil]
  | cons c cs ih =>
    have hc := Char.utf8Size_pos c
    rw [utf8Len_cons, List.cons_append]
    rcases n : c.utf8Size + utf8Len cs + k with _ | m
    · omega
    · simp only [dropBytes]
      have : m + 1 - c.utf8Size = utf8Len cs + k := by omega
      rw [this]
      exact ih

theorem takeBytes_append_len (a b : List Char) : takeBytes (a ++ b) (utf8Len a) = a := by
  have := takeBytes_append_add a b 0
  simpa [takeBytes_zero] using this

theorem dropBytes_append_len (a b : List Char) : dropBytes (a ++ b) (utf8Len a) = b := by
  have := dropBytes_append_add a b 0
  simpa [dropBytes_zero] using this

theorem dropBytes_len (l : List Char) : dropBytes l (utf8Len l) = [] := by
  have := dropBytes_append_len l []
  simpa using this

theorem takeBytes_append_dropBytes {l : List Char} {o : Nat}
    (h : is_codepoint_boundary l o = true) :
    takeBytes l o ++ dropBytes l o = l := by
  induction l generalizing o with
  | nil =>
    rcases o with _ | o
    · rfl
    · simp [is_codepoint_boundary] at h
  | cons c cs ih =>
    rcases o with _ | o
    · rw [takeBytes_zero, dropBytes_zero]; rfl
    · simp only [is_codepoint_boundary] at h
      split at h
      · exact absurd h (by simp)
      · simp only [takeBytes, dropBytes]
        rw [if_neg (by assumption), List.cons_append, ih h]

theorem utf8Len_takeBytes {l : List Char} {o : Nat}
    (h : is_codepoint_boundary l o = true) :
    utf8Len (takeBytes l o) = o := by
  induction l generalizing o with
  | nil =>
    rcases o with _ | o
    · rfl
    · simp [is_codepoint_boundary] at h
  | cons c cs ih =>
    rcases o with _ | o
    · rw [takeBytes_zero]; rfl
    · simp only [is_codepoint_boundary] at h
      split at h
      · exact absurd h (by simp)
      · simp only [takeBytes]
        rw [if_neg (by assumption), utf8Len_cons, ih h]
        omega

/-! ### UTF-8 byte-sequence lemmas -/

theorem length_charUtf8 (c : Char) : (charUtf8 c).length = c.utf8Size := by
  have h1 := Char.utf8Size_pos c
  have h4 := Char.utf8Size_le_four c
  simp only [charUtf8]
  split_ifs with e1 e2 e3 <;> simp <;> omega

theorem utf8Bytes_nil : utf8Bytes [] = [] := rfl

theorem utf8Bytes_cons (c : Char) (l : List Char) :
    utf8Bytes (c :: l) = charUtf8 c ++ utf8Bytes l := by
  simp [utf8Bytes]

theorem utf8Bytes_append (a b : List Char) :
    utf8Bytes (a ++ b) = utf8Bytes a ++ utf8Bytes b := by
  simp [utf8Bytes]

theorem length_utf8Bytes (l : List Char) : (utf8Bytes l).length = utf8Len l := by
  induction l with
  | nil => rfl
  | cons c cs ih =>
    rw [utf8Bytes_cons, utf8Len_cons, List.length_append, length_charUtf8, ih]

theorem utf8Bytes_take {l : List Char} {o : Nat} (h : is_codepoint_boundary l o = true) :
    (utf8Bytes l).take o = utf8Bytes (takeBytes l o) := by
  have hsplit := takeBytes_append_dropBytes h
  have hlen : utf8Len (takeBytes l o) = o := utf8Len_takeBytes h
  conv_lhs => rw [← hsplit]
  rw [utf8Bytes_append, List.take_append_eq_append_take,
    List.take_of_length_le (by rw [length_utf8Bytes, hlen]),
    length_utf8Bytes, hlen, Nat.sub_self, List.take_zero, List.append_nil]

theorem utf8Bytes_drop {l : List Char} {o : Nat} (h : is_codepoint_boundary l o = true) :
    (utf8Bytes l).drop o = utf8Bytes (dropBytes l o) := by
  have hsplit := takeBytes_append_dropBytes h
  have hlen : utf8Len (takeBytes l o) = o := utf8Len_takeBytes h
  conv_lhs => rw [← hsplit]
  rw [utf8Bytes_append, List.drop_append_eq_append_drop,
    List.drop_of_length_le (by rw [length_utf8Bytes, hlen]),
    length_utf8Bytes, hlen, Nat.sub_self, List.drop_zero, List.nil_append]

/-! ### Line-structure lemmas -/

theorem measureLines_nil : measureLines [] = 0 := rfl

theorem measureLines_cons (c : Char) (l : List Char) :
    measureLines (c :: l) = (if c = '\n' then 1 else 0) + measureLines l := by
  by_cases hc : c = '\n'
  · simp [measureLines, List.count_cons, hc]
    omega
  · simp [measureLines, List.count_cons, hc]

theorem measureLines_append (a b : List Char) :
    measureLines (a ++ b) = measureLines a + measureLines b := by
  simp [measureLines, List.count_append]

theorem ool_zero (l : List Char) : offset_of_line l 0 = 0 := by cases l <;> rfl

theorem ool_le_len (l : List Char) (y : Nat) : offset_of_line l y ≤ utf8Len l := by
  induction l generalizing y with
  | nil =>
    rcases y with _ | y <;> simp [offset_of_line, utf8Len_nil]
  | cons c cs ih =>
    rcases y with _ | y
    · rw [ool_zero]; exact Nat.zero_le _
    · simp only [offset_of_line, utf8Len_cons]
      split <;> exact Nat.add_le_add_left (ih _) _

theorem ool_append {a : List Char} (b : List Char) {y : Nat} (h : y ≤ measureLines a) :
    offset_of_line (a ++ b) y = offset_of_line a y := by
  induction a generalizing y with
  | nil =>
    rw [measureLines_nil] at h
    have : y = 0 := Nat.le_zero.mp h
    rw [this, ool_zero, ool_zero]
  | cons c cs ih =>
    rcases y with _ | y
    · rw [ool_zero, ool_zero]
    · rw [measureLines_cons] at h
      rw [List.cons_append]
      simp only [offset_of_line]
      split_ifs with hc

      · rw [hc] at h; simp at h
        rw [ih (by omega)]
      · rw [if_neg hc] at h; simp at h
        rw [ih (by omega)]

theorem ool_last (l : List Char) :
    offset_of_line l (measureLines l + 1) = utf8Len l := by
  induction l with
  | nil => rfl
  | cons c cs ih =>
    rw [measureLines_cons, utf8Len_cons]
    split_ifs with hc
    · have : 1 + measureLines cs + 1 = (measureLines cs + 1) + 1 := by omega
      rw [this]
      simp only [offset_of_line]
      rw [if_pos hc, ih]
    · simp only [Nat.zero_add]
      simp only [offset_of_line]
      rw [if_neg hc, ih]

theorem loo_zero (l : List Char) : line_of_offset l 0 = 0 := by cases l <;> rfl

theorem loo_le_count (l : List Char) (o : Nat) :
    line_of_offset l o ≤ measureLines l := by
  induction l generalizing o with
  | nil => rcases o with _ | o <;> simp [line_of_offset, measureLines_nil]
  | cons c cs ih =>
    rcases o with _ | o
    · rw [loo_zero]; exact Nat.zero_le _
    · simp only [line_of_offset]
      rw [measureLines_cons]
      exact Nat.add_le_add_left (ih _) _

theorem loo_append (a b : List Char) (k : Nat) :
    line_of_offset (a ++ b) (utf8Len a + k) = measureLines a + line_of_offset b k := by
  induction a with
  | nil => simp [utf8Len_nil, measureLines_nil]
  | cons c cs ih =>
    have hc := Char.utf8Size_pos c
    rw [utf8Len_cons, List.cons_append, measureLines_cons]
    rcases n : c.utf8Size + utf8Len cs + k with _ | m
    · omega
    · simp only [line_of_offset]
      have : m + 1 - c.utf8Size = utf8Len cs + k := by omega
      rw [this, ih]
      omega

theorem loo_start_le (l : List Char) (o : Nat) :
    offset_of_line l (line_of_offset l o) ≤ o := by
  induction l generalizing o with
  | nil =>
    rcases o with _ | o
    · simp [loo_zero, ool_zero]
    · simp [line_of_offset, offset_of_line]
  | cons c cs ih =>
    rcases o with _ | o
    · simp [loo_zero, ool_zero]
    · have hc := Char.utf8Size_pos c
      by_cases hnl : c = '\n'
      · have hsz : c.utf8Size = 1 := by rw [hnl]; rfl
        simp only [line_of_offset, if_pos hnl, hsz]
        have harg : o + 1 - 1 = o := by omega
        rw [harg]
        have hone : 1 + line_of_offset cs o = line_of_offset cs o + 1 := by omega
        rw [hone]
        simp only [offset_of_line, if_pos hnl, hsz]
        have := ih o
        omega
      · simp only [line_of_offset, if_neg hnl, Nat.zero_add]
        rcases hl : line_of_offset cs (o + 1 - c.utf8Size) with _ | m
        · rw [ool_zero]; exact Nat.zero_le _
        · have hpos : 0 < o + 1 - c.utf8Size := by
            rcases Nat.eq_zero_or_pos (o + 1 - c.utf8Size) with h0 | h0
            · rw [h0, loo_zero] at hl; exact absurd hl (by simp)
            · exact h0
          simp only [offset_of_line, if_neg hnl]
          have := ih (o + 1 - c.utf8Size)
          rw [hl] at this
          omega

theorem loo_ool {l : List Char} {y : Nat} (h : y ≤ measureLines l) :
    line_of_offset l (offset_of_line l y) = y := by
  induction l generalizing y with
  | nil =>
    rw [measureLines_nil] at h
    have : y = 0 := Nat.le_zero.mp h
    rw [this, ool_zero, loo_zero]
  | cons c cs ih =>
    rcases y with _ | y
    · rw [ool_zero, loo_zero]
    · rw [measureLines_cons] at h
      have hc := Char.utf8Size_pos c
      by_cases hnl : c = '\n'
      · rw [if_pos hnl] at h
        have hsz : c.utf8Size = 1 := by rw [hnl]; rfl
        simp only [offset_of_line, if_pos hnl, hsz]
        rcases n : 1 + offset_of_line cs y with _ | m
        · omega
        · simp only [line_of_offset, if_pos hnl]
          have hm : m + 1 - c.utf8Size = offset_of_line cs y := by omega
          rw [hm, ih (by omega)]
          omega
      · rw [if_neg hnl] at h
        simp only [Nat.zero_add] at h
        simp only [offset_of_line, if_neg hnl]
        rcases n : c.utf8Size + offset_of_line cs (y + 1) with _ | m
        · omega
        · simp only [line_of_offset, if_neg hnl]
          have hm : m + 1 - c.utf8Size = offset_of_line cs (y + 1) := by omega
          rw [hm, ih (by omega)]
          omega

theorem ool_boundary (l : List Char) (y : Nat) :
    is_codepoint_boundary l (offset_of_line l y) = true := by
  induction l generalizing y with
  | nil => rcases y with _ | y <;> simp [offset_of_line, cpb_zero]
  | cons c cs ih =>
    rcases y with _ | y
    · rw [ool_zero]; exact cpb_zero _
    · have hc := Char.utf8Size_pos c
      simp only [offset_of_line]
      split_ifs with hnl
      · rcases n : c.utf8Size + offset_of_line cs y with _ | m
        · omega
        · simp only [is_codepoint_boundary]
          rw [if_neg (by omega)]
          have : m + 1 - c.utf8Size = offset_of_line cs y := by omega
          rw [this]; exact ih _
      · rcases n : c.utf8Size + offset_of_line cs (y + 1) with _ | m
        · omega
        · simp only [is_codepoint_boundary]
          rw [if_neg (by omega)]
          have : m + 1 - c.utf8Size = offset_of_line cs (y + 1) := by omega
          rw [this]; exact ih _

/-! ### takeLine lemmas -/

theorem takeLine_cons (c : Char) (cs : List Char) :
    takeLine (c :: cs) = if c = '\n' then [] else c :: takeLine cs := by
  by_cases hc : c = '\n' <;> simp [takeLine, List.takeWhile_cons, hc]

theorem takeLine_append_line (l : List Char) :
    takeLine l ++ l.dropWhile (fun c => c != '\n') = l :=
  List.takeWhile_append_dropWhile ..

theorem loo_eq_zero_of_le {l : List Char} {k : Nat}
    (h : k ≤ utf8Len (takeLine l)) : line_of_offset l k = 0 := by
  induction l generalizing k with
  | nil => rcases k with _ | m <;> simp [line_of_offset]
  | cons c cs ih =>
    rcases k with _ | m
    · exact loo_zero _
    · rw [takeLine_cons] at h
      by_cases hc : c = '\n'
      · rw [if_pos hc] at h
        rw [utf8Len_nil] at h
        omega
      · rw [if_neg hc, utf8Len_cons] at h
        simp only [line_of_offset, if_neg hc, Nat.zero_add]
        exact ih (by omega)

theorem le_takeLine_of_loo_zero {l : List Char} {k : Nat}
    (h : line_of_offset l k = 0) (hk : k ≤ utf8Len l) :
    k ≤ utf8Len (takeLine l) := by
  induction l generalizing k with
  | nil =>
    rw [utf8Len_nil] at hk
    simp [takeLine]
    omega
  | cons c cs ih =>
    rcases k with _ | m
    · exact Nat.zero_le _
    · rw [takeLine_cons]
      by_cases hc : c = '\n'
      · simp only [line_of_offset, if_pos hc] at h
        omega
      · simp only [line_of_offset, if_neg hc, Nat.zero_add] at h
        rw [utf8Len_cons] at hk
        rw [if_neg hc, utf8Len_cons]
        have := ih h (by omega)
        have hcs := Char.utf8Size_pos c
        omega

theorem utf8Len_takeLine_le (l : List Char) : utf8Len (takeLine l) ≤ utf8Len l := by
  conv_rhs => rw [← takeLine_append_line l]
  rw [utf8Len_append]
  omega

/-! ### Central bridge lemmas between offsets and valid cursors -/

theorem measureLines_takeBytes_ool {l : List Char} {y : Nat}
    (hyc : y ≤ measureLines l) :
    measureLines (takeBytes l (offset_of_line l y)) = y := by
  have hst_b := ool_boundary l y
  have hsplit := takeBytes_append_dropBytes hst_b
  have hA := utf8Len_takeBytes hst_b
  have h0 := loo_append (takeBytes l (offset_of_line l y))
    (dropBytes l (offset_of_line l y)) 0
  rw [hA, Nat.add_zero, hsplit, loo_zero, Nat.add_zero] at h0
  rw [← h0]
  exact loo_ool hyc

theorem ool_add_sub (l : List Char) (o : Nat) :
    offset_of_line l (line_of_offset l o) + (o - offset_of_line l (line_of_offset l o)) = o := by
  have := loo_start_le l o
  omega

theorem offset_to_cursor_valid {l : List Char} {o : Nat}
    (h : is_codepoint_boundary l o = true) :
    valid_cursor l (offset_to_cursor l o) = true := by
  have ho_le : o ≤ utf8Len l := cpb_le h
  have hyc : line_of_offset l o ≤ measureLines l := loo_le_count l o
  have hst_b : is_codepoint_boundary l (offset_of_line l (line_of_offset l o)) = true :=
    ool_boundary l (line_of_offset l o)
  have hso : offset_of_line l (line_of_offset l o) ≤ o := loo_start_le l o
  have hsplit := takeBytes_append_dropBytes hst_b
  have hA := utf8Len_takeBytes hst_b
  have hkb : is_codepoint_boundary (dropBytes l (offset_of_line l (line_of_offset l o)))
      (o - offset_of_line l (line_of_offset l o)) = true := by
    have hc := cpb_append_right (takeBytes l (offset_of_line l (line_of_offset l o)))
      (dropBytes l (offset_of_line l (line_of_offset l o)))
      (o - offset_of_line l (line_of_offset l o))
    rw [hA, hsplit] at hc
    rw [← hc]
    have : offset_of_line l (line_of_offset l o) +
        (o - offset_of_line l (line_of_offset l o)) = o := by omega
    rw [this]
    exact h
  have hcA : measureLines (takeBytes l (offset_of_line l (line_of_offset l o))) =
      line_of_offset l o := measureLines_takeBytes_ool hyc
  have hloB : line_of_offset (dropBytes l (offset_of_line l (line_of_offset l o)))
      (o - offset_of_line l (line_of_offset l o)) = 0 := by
    have h1 := loo_append (takeBytes l (offset_of_line l (line_of_offset l o)))
      (dropBytes l (offset_of_line l (line_of_offset l o)))
      (o - offset_of_line l (line_of_offset l o))
    rw [hA] at h1
    have he : offset_of_line l (line_of_offset l o) +
        (o - offset_of_line l (line_of_offset l o)) = o := by omega
    rw [he, hsplit] at h1
    omega
  have hline : o - offset_of_line l (line_of_offset l o) ≤
      utf8Len (takeLine (dropBytes l (offset_of_line l (line_of_offset l o)))) :=
    le_takeLine_of_loo_zero hloB (cpb_le hkb)
  have hlineB : is_codepoint_boundary
      (takeLine (dropBytes l (offset_of_line l (line_of_offset l o))))
      (o - offset_of_line l (line_of_offset l o)) = true := by
    apply cpb_of_append hline
    rw [takeLine_append_line]
    exact hkb
  simp only [valid_cursor, offset_to_cursor, lineContent, line_count,
    Bool.and_eq_true, decide_eq_true_eq]
  refine ⟨⟨by omega, hline⟩, hlineB⟩

theorem valid_cursor_offset {l : List Char} {x y : Nat}
    (h : valid_cursor l (x, y) = true) :
    is_codepoint_boundary l (offset_of_line l y + x) = true ∧
    offset_of_line l y + x ≤ utf8Len l ∧
    offset_to_cursor l (offset_of_line l y + x) = (x, y) := by
  simp only [valid_cursor, lineContent, line_count, Bool.and_eq_true,
    decide_eq_true_eq] at h
  obtain ⟨⟨hy, hxle⟩, hxb⟩ := h
  have hyc : y ≤ measureLines l := by omega
  have hst_b := ool_boundary l y
  have hsplit := takeBytes_append_dropBytes hst_b
  have hA := utf8Len_takeBytes hst_b
  have hxbB : is_codepoint_boundary (dropBytes l (offset_of_line l y)) x = true := by
    rw [← takeLine_append_line (dropBytes l (offset_of_line l y))]
    exact cpb_append_of_left _ hxb
  have hmain : is_codepoint_boundary l (offset_of_line l y + x) = true := by
    have hc := cpb_append_right (takeBytes l (offset_of_line l y))
      (dropBytes l (offset_of_line l y)) x
    rw [hA, hsplit] at hc
    rw [hc]
    exact hxbB
  refine ⟨hmain, cpb_le hmain, ?_⟩
  have hcA : measureLines (takeBytes l (offset_of_line l y)) = y :=
    measureLines_takeBytes_ool hyc
  have hy' : line_of_offset l (offset_of_line l y + x) = y := by
    have h1 := loo_append (takeBytes l (offset_of_line l y))
      (dropBytes l (offset_of_line l y)) x
    rw [hA, hsplit] at h1
    have hloB : line_of_offset (dropBytes l (offset_of_line l y)) x = 0 :=
      loo_eq_zero_of_le hxle
    omega
  simp only [offset_to_cursor, hy']
  refine Prod.ext ?_ rfl
  simp only
  omega

/-! ### Grapheme-boundary lemmas -/

theorem gb_zero (l : List Char) : isGraphemeBoundary l 0 = true := by
  simp [isGraphemeBoundary, cpb_zero]

theorem gb_len (l : List Char) : isGraphemeBoundary l (utf8Len l) = true := by
  simp [isGraphemeBoundary, cpb_len, charAtByte, dropBytes_len]

theorem gb_cpb {l : List Char} {o : Nat} (h : isGraphemeBoundary l o = true) :
    is_codepoint_boundary l o = true := by
  simp only [isGraphemeBoundary, Bool.and_eq_true] at h
  exact h.1

theorem prev_g_some {l : List Char} {o r : Nat}
    (h : prev_grapheme_offset l o = some r) :
    isGraphemeBoundary l r = true ∧ r < o := by
  induction o with
  | zero => exact absurd h (by simp [prev_grapheme_offset])
  | succ m ih =>
    simp only [prev_grapheme_offset] at h
    split at h
    · cases h
      exact ⟨by assumption, Nat.lt_succ_self _⟩
    · have := ih h
      exact ⟨this.1, Nat.lt_succ_of_lt this.2⟩

theorem prev_g_of_pos (l : List Char) {o : Nat} (h : 0 < o) :
    ∃ r, prev_grapheme_offset l o = some r := by
  induction o with
  | zero => omega
  | succ m ih =>
    simp only [prev_grapheme_offset]
    by_cases hgb : isGraphemeBoundary l m = true
    · rw [if_pos hgb]; exact ⟨m, rfl⟩
    · rw [if_neg hgb]
      rcases Nat.eq_zero_or_pos m with h0 | h0
      · subst h0; exact absurd (gb_zero l) hgb
      · exact ih h0

theorem prev_g_skip (l : List Char) (a n : Nat)
    (h : ∀ j, a ≤ j → j < a + n → isGraphemeBoundary l j = false) :
    prev_grapheme_offset l (a + n) = prev_grapheme_offset l a := by
  induction n with
  | zero => rfl
  | succ m ih =>
    have : a + (m + 1) = (a + m) + 1 := by omega
    rw [this]
    simp only [prev_grapheme_offset]
    rw [h (a + m) (by omega) (by omega)]
    simp only [Bool.false_eq_true, if_false]
    exact ih (fun j hj1 hj2 => h j hj1 (by omega))

theorem nextAux_eq {l : List Char} :
    ∀ (fuel o b : Nat), o ≤ b → b - o < fuel → isGraphemeBoundary l b = true →
    (∀ j, o ≤ j → j < b → isGraphemeBoundary l j = false) →
    nextGraphemeAux l fuel o = some b := by
  intro fuel
  induction fuel with
  | zero => intro o b _ hf _ _; omega
  | succ f ih =>
    intro o b hob hf hb hno
    simp only [nextGraphemeAux]
    rcases Nat.eq_or_lt_of_le hob with heq | hlt
    · rw [heq, hb]
      simp
    · rw [hno o (Nat.le_refl o) hlt]
      simp only [Bool.false_eq_true, if_false]
      exact ih (o + 1) b hlt (by omega) hb (fun j hj1 hj2 => hno j (by omega) hj2)

theorem next_g_eq {l : List Char} {a b : Nat} (hab : a < b)
    (hb : isGraphemeBoundary l b = true)
    (h : ∀ j, a < j → j < b → isGraphemeBoundary l j = false) :
    next_grapheme_offset l a = some b := by
  have hble : b ≤ utf8Len l := cpb_le (gb_cpb hb)
  exact nextAux_eq (utf8Len l - a) (a + 1) b hab (by omega) hb
    (fun j hj1 hj2 => h j (by omega) hj2)

theorem nextAux_some {l : List Char} :
    ∀ {fuel o r : Nat}, nextGraphemeAux l fuel o = some r →
    isGraphemeBoundary l r = true := by
  intro fuel
  induction fuel with
  | zero => intro o r h; exact absurd h (by simp [nextGraphemeAux])
  | succ f ih =>
    intro o r h
    simp only [nextGraphemeAux] at h
    split at h
    · cases h; assumption
    · exact ih h

theorem next_g_some {l : List Char} {o r : Nat}
    (h : next_grapheme_offset l o = some r) :
    isGraphemeBoundary l r = true :=
  nextAux_some h

theorem prev_cp_of_pos (l : List Char) {o : Nat} (h : 0 < o) :
    ∃ r, prev_codepoint_offset l o = some r ∧
      is_codepoint_boundary l r = true ∧ r < o := by
  induction o with
  | zero => omega
  | succ m ih =>
    simp only [prev_codepoint_offset]
    by_cases hb : is_codepoint_boundary l m = true
    · rw [if_pos hb]; exact ⟨m, rfl, hb, Nat.lt_succ_self _⟩
    · rw [if_neg hb]
      rcases Nat.eq_zero_or_pos m with h0 | h0
      · subst h0; exact absurd (cpb_zero l) hb
      · obtain ⟨r, hr, hrb, hrlt⟩ := ih h0
        exact ⟨r, hr, hrb, Nat.lt_succ_of_lt hrlt⟩

theorem at_or_prev_spec (l : List Char) (o : Nat) :
    ∃ r, at_or_prev_codepoint_boundary l o = some r ∧
      is_codepoint_boundary l r = true ∧ r ≤ o := by
  simp only [at_or_prev_codepoint_boundary]
  by_cases hb : is_codepoint_boundary l o = true
  · rw [if_pos hb]; exact ⟨o, rfl, hb, Nat.le_refl o⟩
  · rw [if_neg hb]
    rcases Nat.eq_zero_or_pos o with h0 | h0
    · subst h0; exact absurd (cpb_zero l) hb
    · obtain ⟨r, hr, hrb, hrlt⟩ := prev_cp_of_pos l h0
      exact ⟨r, hr, hrb, Nat.le_of_lt hrlt⟩

theorem at_or_next_len (l : List Char) :
    at_or_next_codepoint_boundary l (utf8Len l) = some (utf8Len l) := by
  simp [at_or_next_codepoint_boundary, cpb_len]

/-! ### Unfolding equations for the arms of `process` -/

theorem process_moveleft_some {s : BufferState} {r : Nat}
    (h : prev_grapheme_offset s.buffer (get_offset s) = some r) :
    process s .MoveLeft = { s with cursor := offset_to_cursor s.buffer r } := by
  simp [process, h]

theorem process_moveleft_none {s : BufferState}
    (h : prev_grapheme_offset s.buffer (get_offset s) = none) :
    process s .MoveLeft = { s with cursor := (0, s.cursor.2) } := by
  simp [process, h]

theorem process_moveright_some {s : BufferState} {r : Nat}
    (h : next_grapheme_offset s.buffer (get_offset s) = some r) :
    process s .MoveRight = { s with cursor := offset_to_cursor s.buffer r } := by
  simp [process, h]

theorem process_moveright_none {s : BufferState}
    (h : next_grapheme_offset s.buffer (get_offset s) = none) :
    process s .MoveRight = s := by
  simp [process, h]

theorem process_moveup_zero {s : BufferState} (h : s.cursor.2 = 0) :
    process s .MoveUp = { s with cursor := (0, 0) } := by
  simp [process, h]

theorem process_moveup_pos {s : BufferState} (h : ¬s.cursor.2 = 0) :
    process s .MoveUp = { s with cursor := (offset_to_cursor s.buffer
      ((at_or_prev_codepoint_boundary s.buffer
        (offset_of_line s.buffer (s.cursor.2 - 1) +
          min s.cursor.1 (lineLenFrom s.buffer
            (offset_of_line s.buffer (s.cursor.2 - 1))))).getD 0)) } := by
  simp [process, h]

theorem process_movedown_last {s : BufferState}
    (h : measureLines s.buffer = 0 ∨ s.cursor.2 = measureLines s.buffer - 1) :
    process s .MoveDown = { s with cursor := (offset_to_cursor s.buffer
      ((at_or_next_codepoint_boundary s.buffer (utf8Len s.buffer)).getD 0)) } := by
  simp only [process]
  rw [if_pos h]

theorem process_movedown_mid {s : BufferState}
    (h : ¬(measureLines s.buffer = 0 ∨ s.cursor.2 = measureLines s.buffer - 1)) :
    process s .MoveDown = { s with cursor := (offset_to_cursor s.buffer
      ((at_or_prev_codepoint_boundary s.buffer
        (offset_of_line s.buffer (s.cursor.2 + 1) +
          min s.cursor.1 (lineLenFrom s.buffer
            (offset_of_line s.buffer (s.cursor.2 + 1))))).getD 0)) } := by
  simp only [process]
  rw [if_neg h]

theorem process_insert (s : BufferState) (ch : Char) :
    process s (.Insert ch) =
      { cursor := (s.cursor.1 + ch.utf8Size, s.cursor.2),
        buffer := edit s.buffer (get_offset s) (get_offset s) [ch] } := rfl

theorem process_insert_newline (s : BufferState) :
    process s .InsertNewline =
      { cursor := (0, s.cursor.2 + 1),
        buffer := edit s.buffer (get_offset s) (get_offset s) ['\n'] } := rfl

theorem process_remove_zero {s : BufferState} (h : get_offset s = 0) :
    process s .Remove = s := by
  simp [process, h]

theorem process_remove_pos {s : BufferState} (h : ¬get_offset s = 0) :
    process s .Remove =
      { cursor := offset_to_cursor
          (edit s.buffer ((prev_grapheme_offset s.buffer (get_offset s)).getD 0)
            (get_offset s) [])
          ((prev_grapheme_offset s.buffer (get_offset s)).getD 0),
        buffer := edit s.buffer
          ((prev_grapheme_offset s.buffer (get_offset s)).getD 0)
          (get_offset s) [] } := by
  simp only [process]
  rw [if_neg h]

/-! ### Small validity helpers -/

theorem valid_line_lt {l : List Char} {x y : Nat}
    (h : valid_cursor l (x, y) = true) : y < max 1 (line_count l) := by
  simp only [valid_cursor, Bool.and_eq_true, decide_eq_true_eq] at h
  exact h.1.1

theorem valid_cursor_col_zero {l : List Char} {y : Nat}
    (h : y < max 1 (line_count l)) : valid_cursor l (0, y) = true := by
  simp [valid_cursor, cpb_zero, h]

/-! ### Effect of an insertion on the line structure -/

theorem measureLines_takeBytes {l : List Char} {o : Nat}
    (h : is_codepoint_boundary l o = true) :
    measureLines (takeBytes l o) = line_of_offset l o := by
  have hsplit := takeBytes_append_dropBytes h
  have hA := utf8Len_takeBytes h
  have h0 := loo_append (takeBytes l o) (dropBytes l o) 0
  rw [hA, Nat.add_zero, hsplit, loo_zero, Nat.add_zero] at h0
  exact h0.symm

theorem measureLines_edit_insert {l : List Char} {o : Nat} (m : List Char)
    (h : is_codepoint_boundary l o = true) :
    measureLines (edit l o o m) = measureLines l + measureLines m := by
  have hsplit := takeBytes_append_dropBytes h
  simp only [edit]
  conv_rhs => rw [← hsplit]
  simp [measureLines_append]
  omega

theorem snd_offset_to_cursor (l : List Char) (o : Nat) :
    (offset_to_cursor l o).2 = line_of_offset l o := rfl

theorem ool_edit_insert {l : List Char} {x y : Nat} (m : List Char)
    (h : valid_cursor l (x, y) = true) :
    offset_of_line (edit l (offset_of_line l y + x) (offset_of_line l y + x) m) y
      = offset_of_line l y := by
  obtain ⟨hb, _, hotc⟩ := valid_cursor_offset h
  have hy : line_of_offset l (offset_of_line l y + x) = y := by
    have h2 := congrArg Prod.snd hotc
    simpa [snd_offset_to_cursor] using h2
  have hcA : measureLines (takeBytes l (offset_of_line l y + x)) = y := by
    rw [measureLines_takeBytes hb, hy]
  have hsplit := takeBytes_append_dropBytes hb
  simp only [edit]
  rw [List.append_assoc,
    ool_append (m ++ dropBytes l (offset_of_line l y + x)) (le_of_eq hcA.symm)]
  conv_rhs => rw [← hsplit]
  rw [ool_append (dropBytes l (offset_of_line l y + x)) (le_of_eq hcA.symm)]

theorem insert_cursor {l : List Char} {x y : Nat} {ch : Char}
    (h : valid_cursor l (x, y) = true) (hch : ch ≠ '\n') :
    is_codepoint_boundary
        (edit l (offset_of_line l y + x) (offset_of_line l y + x) [ch])
        (offset_of_line l y + x + ch.utf8Size) = true ∧
    offset_to_cursor
        (edit l (offset_of_line l y + x) (offset_of_line l y + x) [ch])
        (offset_of_line l y + x + ch.utf8Size) = (x + ch.utf8Size, y) := by
  obtain ⟨hb, _, hotc⟩ := valid_cursor_offset h
  have hy : line_of_offset l (offset_of_line l y + x) = y := by
    have h2 := congrArg Prod.snd hotc
    simpa [snd_offset_to_cursor] using h2
  have hsplit := takeBytes_append_dropBytes hb
  have hA := utf8Len_takeBytes hb
  have hcA : measureLines (takeBytes l (offset_of_line l y + x)) = y := by
    rw [measureLines_takeBytes hb, hy]
  have hch0 : measureLines [ch] = 0 := by
    simp [measureLines, List.count_singleton, hch]
  have hedit : edit l (offset_of_line l y + x) (offset_of_line l y + x) [ch] =
      (takeBytes l (offset_of_line l y + x) ++ [ch]) ++
        dropBytes l (offset_of_line l y + x) := by
    simp [edit, List.append_assoc]
  have hA' : utf8Len (takeBytes l (offset_of_line l y + x) ++ [ch]) =
      offset_of_line l y + x + ch.utf8Size := by
    rw [utf8Len_append, hA]
    simp [utf8Len]
  have hcA' : measureLines (takeBytes l (offset_of_line l y + x) ++ [ch]) = y := by
    rw [measureLines_append, hcA, hch0]
    omega
  have hbnd : is_codepoint_boundary
      (edit l (offset_of_line l y + x) (offset_of_line l y + x) [ch])
      (offset_of_line l y + x + ch.utf8Size) = true := by
    rw [hedit]
    have hcc := cpb_append_right (takeBytes l (offset_of_line l y + x) ++ [ch])
      (dropBytes l (offset_of_line l y + x)) 0
    rw [hA', Nat.add_zero] at hcc
    rw [hcc]
    exact cpb_zero _
  refine ⟨hbnd, ?_⟩
  have hy' : line_of_offset
      (edit l (offset_of_line l y + x) (offset_of_line l y + x) [ch])
      (offset_of_line l y + x + ch.utf8Size) = y := by
    rw [hedit]
    have hll := loo_append (takeBytes l (offset_of_line l y + x) ++ [ch])
      (dropBytes l (offset_of_line l y + x)) 0
    rw [hA', Nat.add_zero, loo_zero, Nat.add_zero, hcA'] at hll
    exact hll
  have hooll : offset_of_line
      (edit l (offset_of_line l y + x) (offset_of_line l y + x) [ch]) y =
      offset_of_line l y := ool_edit_insert [ch] h
  simp only [offset_to_cursor, hy', hooll]
  refine Prod.ext ?_ rfl
  simp only
  omega

/-! ### Every well-behaved command preserves the cursor invariant -/

theorem valid_step {s : BufferState} {c : EditorCommand}
    (hv : valid_cursor s.buffer s.cursor = true) (hgc : goodCmd c = true) :
    valid_cursor (process s c).buffer (process s c).cursor = true := by
  cases c with
  | MoveLeft =>
    rcases h : prev_grapheme_offset s.buffer (get_offset s) with _ | r
    · rw [process_moveleft_none h]
      exact valid_cursor_col_zero (valid_line_lt hv)
    · rw [process_moveleft_some h]
      exact offset_to_cursor_valid (gb_cpb (prev_g_some h).1)
  | MoveRight =>
    rcases h : next_grapheme_offset s.buffer (get_offset s) with _ | r
    · rw [process_moveright_none h]; exact hv
    · rw [process_moveright_some h]
      exact offset_to_cursor_valid (gb_cpb (next_g_some h))
  | MoveUp =>
    by_cases h0 : s.cursor.2 = 0
    · rw [process_moveup_zero h0]
      apply valid_cursor_col_zero
      simp [line_count]
    · rw [process_moveup_pos h0]
      obtain ⟨r, hr, hrb, _⟩ := at_or_prev_spec s.buffer
        (offset_of_line s.buffer (s.cursor.2 - 1) +
          min s.cursor.1 (lineLenFrom s.buffer (offset_of_line s.buffer (s.cursor.2 - 1))))
      rw [hr]
      simp only [Option.getD_some]
      exact offset_to_cursor_valid hrb
  | MoveDown =>
    by_cases h0 : measureLines s.buffer = 0 ∨ s.cursor.2 = measureLines s.buffer - 1
    · rw [process_movedown_last h0]
      rw [at_or_next_len]
      simp only [Option.getD_some]
      exact offset_to_cursor_valid (cpb_len s.buffer)
    · rw [process_movedown_mid h0]
      obtain ⟨r, hr, hrb, _⟩ := at_or_prev_spec s.buffer
        (offset_of_line s.buffer (s.cursor.2 + 1) +
          min s.cursor.1 (lineLenFrom s.buffer (offset_of_line s.buffer (s.cursor.2 + 1))))
      rw [hr]
      simp only [Option.getD_some]
      exact offset_to_cursor_valid hrb
  | Insert ch =>
    have hch : ch ≠ '\n' := by simpa [goodCmd] using hgc
    rw [process_insert]
    have hv' : valid_cursor s.buffer (s.cursor.1, s.cursor.2) = true := hv
    obtain ⟨hb, hcur⟩ := insert_cursor hv' hch
    have hval := offset_to_cursor_valid hb
    rw [hcur] at hval
    exact hval
  | InsertNewline =>
    rw [process_insert_newline]
    apply valid_cursor_col_zero
    have hv' : valid_cursor s.buffer (s.cursor.1, s.cursor.2) = true := hv
    have hb : is_codepoint_boundary s.buffer (get_offset s) = true :=
      (valid_cursor_offset hv').1
    have hcnt := measureLines_edit_insert ['\n'] hb
    have hone : measureLines ['\n'] = 1 := rfl
    rw [hone] at hcnt
    have hylt := valid_line_lt hv'
    have h2 : line_count (edit s.buffer (get_offset s) (get_offset s) ['\n']) =
        line_count s.buffer + 1 := by
      simp only [line_count, hcnt]
    rw [h2]
    have h3 : 1 ≤ line_count s.buffer := by simp [line_count]
    omega
  | Remove =>
    by_cases h0 : get_offset s = 0
    · rw [process_remove_zero h0]; exact hv
    · rw [process_remove_pos h0]
      obtain ⟨r, hr⟩ := prev_g_of_pos s.buffer (Nat.pos_of_ne_zero h0)
      rw [hr]
      simp only [Option.getD_some]
      apply offset_to_cursor_valid
      have hrb : is_codepoint_boundary s.buffer r = true := gb_cpb (prev_g_some hr).1
      have hA := utf8Len_takeBytes hrb
      have hcc := cpb_append_right (takeBytes s.buffer r)
        (dropBytes s.buffer (get_offset s)) 0
      rw [hA, Nat.add_zero] at hcc
      simp only [edit, List.nil_append, List.append_nil]
      rw [hcc]
      exact cpb_zero _

theorem get_offset_mk_offset_to_cursor (l : List Char) (o : Nat) :
    get_offset ⟨offset_to_cursor l o, l⟩ = o := by
  simp only [get_offset, offset_to_cursor]
  exact ool_add_sub l o

theorem charUtf8_newline : charUtf8 '\n' = [10] := rfl

theorem valid_processAll {s : BufferState} {cmds : List EditorCommand}
    (hs : valid_cursor s.buffer s.cursor = true)
    (h : ∀ c ∈ cmds, goodCmd c = true) :
    valid_cursor (processAll s cmds).buffer (processAll s cmds).cursor = true := by
  induction cmds generalizing s with
  | nil => exact hs
  | cons c cs ih =>
    have h1 : processAll s (c :: cs) = processAll (process s c) cs := rfl
    rw [h1]
    exact ih (valid_step hs (h c (by simp))) (fun d hd => h d (by simp [hd]))

/-! ### Grapheme clusters under insertion and movement -/

theorem cpb_cons_ge {c : Char} (M : List Char) {t : Nat} (h : c.utf8Size ≤ t) :
    is_codepoint_boundary (c :: M) t = is_codepoint_boundary M (t - c.utf8Size) := by
  have hsz := Char.utf8Size_pos c
  rcases t with _ | m
  · omega
  · simp only [is_codepoint_boundary]
    rw [if_neg (by omega)]

theorem dropBytes_cons_pos {c : Char} (M : List Char) {t : Nat} (h : 0 < t) :
    dropBytes (c :: M) t = dropBytes M (t - c.utf8Size) := by
  rcases t with _ | m
  · omega
  · rfl

theorem head_dropBytes_mem (ms rest : List Char) (k : Nat) (hk : k < utf8Len ms)
    (hcp : is_codepoint_boundary (ms ++ rest) k = true) :
    ∃ m, (dropBytes (ms ++ rest) k).head? = some m ∧ m ∈ ms := by
  induction ms generalizing k with
  | nil => rw [utf8Len_nil] at hk; omega
  | cons m ms' ih =>
    have hsz := Char.utf8Size_pos m
    rcases k with _ | t
    · rw [dropBytes_zero]
      exact ⟨m, rfl, List.mem_cons_self m ms'⟩
    · rw [List.cons_append] at hcp
      simp only [is_codepoint_boundary] at hcp
      split at hcp
      · exact absurd hcp (by simp)
      · rw [utf8Len_cons] at hk
        rw [List.cons_append, dropBytes_cons_pos _ (Nat.succ_pos t)]
        obtain ⟨m', hm', hmem⟩ := ih (t + 1 - m.utf8Size) (by omega) hcp
        exact ⟨m', hm', List.mem_cons_of_mem m hmem⟩

theorem gb_at_char {l A : List Char} {c : Char} (X : List Char)
    (hl : l = A ++ (c :: X)) (hc : isCombining c = false) :
    isGraphemeBoundary l (utf8Len A) = true := by
  have hcpb : is_codepoint_boundary l (utf8Len A) = true := by
    rw [hl]
    have h0 := cpb_append_right A (c :: X) 0
    rw [Nat.add_zero] at h0
    rw [h0]
    exact cpb_zero _
  have hchar : charAtByte l (utf8Len A) = some c := by
    rw [hl, charAtByte]
    have h0 := dropBytes_append_add A (c :: X) 0
    rw [Nat.add_zero] at h0
    rw [h0, dropBytes_zero]
    rfl
  simp [isGraphemeBoundary, hcpb, hchar, hc]

theorem gb_cluster_end {l A : List Char} {c : Char} (ms rest : List Char)
    (hl : l = A ++ (c :: (ms ++ rest)))
    (hrest : rest.head?.any isCombining = false) :
    isGraphemeBoundary l (utf8Len A + c.utf8Size + utf8Len ms) = true := by
  have h1 : l = (A ++ (c :: ms)) ++ rest := by
    rw [hl]; simp [List.append_assoc]
  have hlen : utf8Len (A ++ (c :: ms)) = utf8Len A + c.utf8Size + utf8Len ms := by
    rw [utf8Len_append, utf8Len_cons]; omega
  have hcpb : is_codepoint_boundary l (utf8Len A + c.utf8Size + utf8Len ms) = true := by
    rw [h1, ← hlen]
    have h0 := cpb_append_right (A ++ (c :: ms)) rest 0
    rw [Nat.add_zero] at h0
    rw [h0]
    exact cpb_zero _
  have hchar : charAtByte l (utf8Len A + c.utf8Size + utf8Len ms) = rest.head? := by
    rw [h1, ← hlen, charAtByte, dropBytes_append_len]
  simp [isGraphemeBoundary, hcpb, hchar, hrest]

theorem run_no_gb {l A : List Char} {c : Char} (ms rest : List Char)
    (hl : l = A ++ (c :: (ms ++ rest)))
    (hall : ∀ m ∈ ms, isCombining m = true) :
    ∀ j, utf8Len A < j → j < utf8Len A + c.utf8Size + utf8Len ms →
      isGraphemeBoundary l j = false := by
  intro j hj1 hj2
  have hj0 : j ≠ 0 := by omega
  have ht : j = utf8Len A + (j - utf8Len A) := by omega
  have hcpb : is_codepoint_boundary l j =
      is_codepoint_boundary (c :: (ms ++ rest)) (j - utf8Len A) := by
    conv_lhs => rw [hl, ht]
    exact cpb_append_right A (c :: (ms ++ rest)) (j - utf8Len A)
  by_cases hlt : j - utf8Len A < c.utf8Size
  · have : is_codepoint_boundary l j = false := by
      rw [hcpb]
      exact cpb_cons_inside _ (by omega) hlt
    simp [isGraphemeBoundary, this]
  · have hk : j - utf8Len A - c.utf8Size < utf8Len ms := by omega
    have hcpb2 : is_codepoint_boundary l j =
        is_codepoint_boundary (ms ++ rest) (j - utf8Len A - c.utf8Size) := by
      rw [hcpb, cpb_cons_ge _ (by omega)]
    by_cases hcp : is_codepoint_boundary (ms ++ rest) (j - utf8Len A - c.utf8Size) = true
    · have hdrop : dropBytes l j =
          dropBytes (ms ++ rest) (j - utf8Len A - c.utf8Size) := by
        conv_lhs => rw [hl, ht]
        rw [dropBytes_append_add, dropBytes_cons_pos _ (by omega)]
      obtain ⟨m, hm, hmem⟩ :=
        head_dropBytes_mem ms rest (j - utf8Len A - c.utf8Size) hk hcp
      have hcomb : (charAtByte l j).any isCombining = true := by
        rw [charAtByte, hdrop, hm]
        simpa using hall m hmem
      simp [isGraphemeBoundary, hcomb, hj0]
    · have : is_codepoint_boundary l j = false := by
        rw [hcpb2]
        exact Bool.eq_false_iff.mpr hcp
      simp [isGraphemeBoundary, this]

theorem insert_prev_grapheme {l : List Char} {o : Nat} {ch : Char}
    (hb : is_codepoint_boundary l o = true) (hch : isCombining ch = false) :
    prev_grapheme_offset (edit l o o [ch]) (o + ch.utf8Size) = some o := by
  have hsz := Char.utf8Size_pos ch
  have hsplit := takeBytes_append_dropBytes hb
  have hA := utf8Len_takeBytes hb
  have hl' : edit l o o [ch] = takeBytes l o ++ (ch :: dropBytes l o) := by
    simp [edit]
  have hgb : isGraphemeBoundary (edit l o o [ch]) o = true := by
    have := gb_at_char (dropBytes l o) hl' hch
    rwa [hA] at this
  have hno : ∀ j, o + 1 ≤ j → j < (o + 1) + (ch.utf8Size - 1) →
      isGraphemeBoundary (edit l o o [ch]) j = false := by
    intro j hj1 hj2
    have h0t : 0 < j - o := by omega
    have hts : j - o < ch.utf8Size := by omega
    have ht : j = o + (j - o) := by omega
    have hcpb : is_codepoint_boundary (edit l o o [ch]) j = false := by
      have hstep := cpb_append_right (takeBytes l o) (ch :: dropBytes l o) (j - o)
      rw [hA] at hstep
      rw [hl', ht, hstep]
      exact cpb_cons_inside _ h0t hts
    simp [isGraphemeBoundary, hcpb]
  have hstep : o + ch.utf8Size = (o + 1) + (ch.utf8Size - 1) := by omega
  rw [hstep, prev_g_skip _ _ _ hno]
  simp only [prev_grapheme_offset]
  rw [if_pos hgb]

theorem insert_then_delete {l : List Char} {o : Nat} (ch : Char)
    (hb : is_codepoint_boundary l o = true) :
    edit (edit l o o [ch]) o (o + ch.utf8Size) [] = l := by
  have hsplit := takeBytes_append_dropBytes hb
  have hA := utf8Len_takeBytes hb
  have h1 : edit l o o [ch] = takeBytes l o ++ (ch :: dropBytes l o) := by
    simp [edit]
  have htk : takeBytes (edit l o o [ch]) o = takeBytes l o := by
    have h2 := takeBytes_append_len (takeBytes l o) (ch :: dropBytes l o)
    rw [hA] at h2
    rw [h1, h2]
  have h1' : edit l o o [ch] = (takeBytes l o ++ [ch]) ++ dropBytes l o := by
    rw [h1]; simp [List.append_assoc]
  have hdr : dropBytes (edit l o o [ch]) (o + ch.utf8Size) = dropBytes l o := by
    have h2 := dropBytes_append_len (takeBytes l o ++ [ch]) (dropBytes l o)
    have h3 : utf8Len (takeBytes l o ++ [ch]) = o + ch.utf8Size := by
      rw [utf8Len_append, hA]; simp [utf8Len]
    rw [h3] at h2
    rw [h1', h2]
  show takeBytes (edit l o o [ch]) o ++ [] ++ dropBytes (edit l o o [ch]) (o + ch.utf8Size) = l
  rw [htk, hdr]
  simpa using hsplit

/-! ### Decomposition at the start of a positive line (for `MoveLeft`) -/

theorem takeLine_append_newline (X B : List Char) (h : measureLines X = 0) :
    takeLine (X ++ '\n' :: B) = X := by
  induction X with
  | nil =>
    rw [List.nil_append, takeLine_cons, if_pos rfl]
  | cons x X' ih =>
    rw [measureLines_cons] at h
    have hx : x ≠ '\n' := by
      intro he
      rw [if_pos he] at h
      omega
    rw [if_neg hx] at h
    rw [List.cons_append, takeLine_cons, if_neg hx, ih (by omega)]

theorem ool_decomp (l : List Char) (n : Nat) (h1 : 1 ≤ n) (h2 : n ≤ measureLines l) :
    ∃ A B, l = A ++ '\n' :: B ∧ measureLines A = n - 1 ∧
      offset_of_line l n = utf8Len A + 1 := by
  induction l generalizing n with
  | nil => rw [measureLines_nil] at h2; omega
  | cons c cs ih =>
    rw [measureLines_cons] at h2
    by_cases hc : c = '\n'
    · rw [if_pos hc] at h2
      have hsz : c.utf8Size = 1 := by rw [hc]; rfl
      rcases n with _ | n'
      · omega
      · rcases Nat.eq_zero_or_pos n' with h0 | h0
        · subst h0
          refine ⟨[], cs, by rw [hc]; rfl, rfl, ?_⟩
          simp only [offset_of_line, if_pos hc, ool_zero, hsz, utf8Len_nil]
        · obtain ⟨A', B', hl', hcA', hool'⟩ := ih n' h0 (by omega)
          refine ⟨c :: A', B', by rw [List.cons_append, ← hl'], ?_, ?_⟩
          · rw [measureLines_cons, if_pos hc, hcA']
            omega
          · simp only [offset_of_line, if_pos hc, hool', utf8Len_cons, hsz]
            omega
    · rw [if_neg hc, Nat.zero_add] at h2
      obtain ⟨A', B', hl', hcA', hool'⟩ := ih n h1 h2
      refine ⟨c :: A', B', by rw [List.cons_append, ← hl'], ?_, ?_⟩
      · rw [measureLines_cons, if_neg hc, hcA']
        omega
      · rcases n with _ | n'
        · omega
        · simp only [offset_of_line, if_neg hc, hool', utf8Len_cons]
          omega

/-! ### Claim theorems -/

/-- C1: for the document with line byte lengths `[10, 3, 10]` and cursor at
column 8 of line 0, the first `MoveDown` clamps to column `min(8,3) = 3` of
line 1 as the spec's test demands, but the second `MoveDown` jumps to the
end of the document, cursor `(10, 2)`, *not* the clamped `(3, 2)` the spec
requires: the code's last-line test `cursor.1 == lines - 1` compares against
the newline count, which is the index of the second-to-last line. -/
theorem movedown_vertical_clamp_eval :
    (processAll ⟨(8, 0), String.toList "aaaaaaaaaa\nbbb\ncccccccccc"⟩
        [.MoveDown]).cursor = (3, 1) ∧
    (processAll ⟨(8, 0), String.toList "aaaaaaaaaa\nbbb\ncccccccccc"⟩
        [.MoveDown, .MoveDown]).cursor = (10, 2) ∧
    (10, 2) ≠ (3, 2) := by
  refine ⟨by decide, by decide, by decide⟩

/-- C2: on the buffer `"é\nab"` with the (valid) cursor at column 1 of
line 1, `get_cursor` returns `(4, 1)`, whereas the spec's display query
(count the characters of the current line up to the byte column) gives
`(1, 1)`: the code passes the line *index* to `line_of_offset`, which
expects a byte *offset*, so it scans from the wrong start. -/
theorem get_cursor_eval :
    valid_cursor (String.toList "é\nab") (1, 1) = true ∧
    get_cursor ⟨(1, 1), String.toList "é\nab"⟩ = (4, 1) ∧
    spec_display_cursor ⟨(1, 1), String.toList "é\nab"⟩ = (1, 1) ∧
    get_cursor ⟨(1, 1), String.toList "é\nab"⟩ ≠
      spec_display_cursor ⟨(1, 1), String.toList "é\nab"⟩ := by
  refine ⟨by decide, by decide, by decide, by decide⟩

/-- C3: on the last logical line (index `line_count - 1`), `MoveDown` always
sets the cursor to the end-of-document position, for every document and
every starting column. -/
theorem movedown_lastline (l : List Char) (x : Nat) :
    (process ⟨(x, line_count l - 1), l⟩ .MoveDown).cursor =
      offset_to_cursor l (utf8Len l) := by
  by_cases h0 : measureLines l = 0
  · rw [process_movedown_last (Or.inl h0), at_or_next_len]
    rfl
  · have hne : ¬(measureLines l = 0 ∨
        (⟨(x, line_count l - 1), l⟩ : BufferState).cursor.2 = measureLines l - 1) := by
      simp only [line_count]
      omega
    rw [process_movedown_mid hne]
    dsimp only
    have e1 : line_count l - 1 + 1 = measureLines l + 1 := by
      simp only [line_count]
      omega
    rw [e1, ool_last]
    have e2 : lineLenFrom l (utf8Len l) = 0 := by
      simp [lineLenFrom, dropBytes_len, takeLine, utf8Len_nil]
    rw [e2]
    have e3 : at_or_prev_codepoint_boundary l (utf8Len l) = some (utf8Len l) := by
      simp [at_or_prev_codepoint_boundary, cpb_len]
    simp only [Nat.min_zero, Nat.add_zero]
    rw [e3]
    simp only [Option.getD_some]

/-- C4 (counterexample to the claim over *all* command sequences): from the
initial state, `Insert '\n'` produces the buffer `"\n"` with cursor
`(1, 0)`, whose column 1 exceeds the byte length 0 of line 0's content. -/
theorem cursor_invariant_counterexample :
    ¬ valid_cursor (processAll BufferState.new [.Insert '\n']).buffer
        (processAll BufferState.new [.Insert '\n']).cursor = true := by
  decide

/-- C4 (amended): starting from the initial state, after any command
sequence in which no `Insert` carries `'\n'` (the decoder sends line breaks
as `InsertNewline`, `Insert` only carries printable characters), the cursor
line stays below `max 1 (line_count)` and the cursor column is a valid
UTF-8 boundary within the byte length of its line's content. -/
theorem cursor_invariant (cmds : List EditorCommand)
    (h : ∀ c ∈ cmds, goodCmd c = true) :
    valid_cursor (processAll BufferState.new cmds).buffer
      (processAll BufferState.new cmds).cursor = true :=
  valid_processAll (by decide) h

/-- C4 witness: the invariant after the spec §8 scenario
`Insert 'h', Insert 'i', MoveLeft, Remove`. -/
theorem cursor_invariant_witness :
    (∀ c ∈ [EditorCommand.Insert 'h', .Insert 'i', .MoveLeft, .Remove],
        goodCmd c = true) ∧
    valid_cursor
      (processAll BufferState.new
        [EditorCommand.Insert 'h', .Insert 'i', .MoveLeft, .Remove]).buffer
      (processAll BufferState.new
        [EditorCommand.Insert 'h', .Insert 'i', .MoveLeft, .Remove]).cursor = true :=
  ⟨by decide, cursor_invariant [.Insert 'h', .Insert 'i', .MoveLeft, .Remove] (by decide)⟩

/-- C10: the four movement commands never change the buffer, for every
state. -/
theorem movement_preserves_buffer (s : BufferState) :
    (process s .MoveLeft).buffer = s.buffer ∧
    (process s .MoveRight).buffer = s.buffer ∧
    (process s .MoveUp).buffer = s.buffer ∧
    (process s .MoveDown).buffer = s.buffer := by
  refine ⟨?_, ?_, ?_, ?_⟩
  · rcases h : prev_grapheme_offset s.buffer (get_offset s) with _ | r
    · rw [process_moveleft_none h]
    · rw [process_moveleft_some h]
  · rcases h : next_grapheme_offset s.buffer (get_offset s) with _ | r
    · rw [process_moveright_none h]
    · rw [process_moveright_some h]
  · by_cases h : s.cursor.2 = 0
    · rw [process_moveup_zero h]
    · rw [process_moveup_pos h]
  · by_cases h : measureLines s.buffer = 0 ∨ s.cursor.2 = measureLines s.buffer - 1
    · rw [process_movedown_last h]
    · rw [process_movedown_mid h]

/-- C8: `InsertNewline` splices the byte `0x0A` into the UTF-8 stream at the
cursor offset and moves the cursor to `(0, line + 1)`; concretely, from
buffer `"ab"` with cursor `(1, 0)` it produces the lines `"a"`, `"b"` and
cursor `(0, 1)`. -/
theorem insert_newline_split (s : BufferState)
    (hv : valid_cursor s.buffer s.cursor = true) :
    (process s .InsertNewline).cursor = (0, s.cursor.2 + 1) ∧
    utf8Bytes (process s .InsertNewline).buffer =
      (utf8Bytes s.buffer).take (get_offset s) ++
        10 :: (utf8Bytes s.buffer).drop (get_offset s) ∧
    bufferLines (process ⟨(1, 0), ['a', 'b']⟩ .InsertNewline).buffer = [['a'], ['b']] ∧
    (process ⟨(1, 0), ['a', 'b']⟩ .InsertNewline).cursor = (0, 1) := by
  have hv' : valid_cursor s.buffer (s.cursor.1, s.cursor.2) = true := hv
  have hb : is_codepoint_boundary s.buffer (get_offset s) = true :=
    (valid_cursor_offset hv').1
  refine ⟨rfl, ?_, by decide, by decide⟩
  rw [process_insert_newline]
  show utf8Bytes (edit s.buffer (get_offset s) (get_offset s) ['\n']) = _
  rw [utf8Bytes_take hb, utf8Bytes_drop hb]
  simp [edit, utf8Bytes_append, utf8Bytes_cons, utf8Bytes_nil, charUtf8_newline]

/-- C8 witness: the general byte-level equation applied at buffer `"ab"`,
cursor `(1, 0)`. -/
theorem insert_newline_split_witness :
    valid_cursor (['a', 'b'] : List Char) ((1, 0) : Nat × Nat) = true ∧
    ((process ⟨(1, 0), ['a', 'b']⟩ .InsertNewline).cursor = (0, (1, 0).2 + 1) ∧
      utf8Bytes (process ⟨(1, 0), ['a', 'b']⟩ .InsertNewline).buffer =
        (utf8Bytes ['a', 'b']).take (get_offset ⟨(1, 0), ['a', 'b']⟩) ++
          10 :: (utf8Bytes ['a', 'b']).drop (get_offset ⟨(1, 0), ['a', 'b']⟩) ∧
      bufferLines (process ⟨(1, 0), ['a', 'b']⟩ .InsertNewline).buffer = [['a'], ['b']] ∧
      (process ⟨(1, 0), ['a', 'b']⟩ .InsertNewline).cursor = (0, 1)) :=
  ⟨by decide, insert_newline_split ⟨(1, 0), ['a', 'b']⟩ (by decide)⟩

/-- C6: `Remove` at absolute byte offset 0 is a no-op on the whole state;
at a positive offset it removes exactly the bytes
`[prev_grapheme_offset, offset)` from the UTF-8 stream and leaves the
cursor at the position of the deletion start. -/
theorem remove_behaviour (s : BufferState)
    (hv : valid_cursor s.buffer s.cursor = true) :
    (get_offset s = 0 → process s .Remove = s) ∧
    (0 < get_offset s →
      ∃ r, prev_grapheme_offset s.buffer (get_offset s) = some r ∧
        utf8Bytes (process s .Remove).buffer =
          (utf8Bytes s.buffer).take r ++ (utf8Bytes s.buffer).drop (get_offset s) ∧
        (process s .Remove).cursor =
          offset_to_cursor (process s .Remove).buffer r ∧
        get_offset (process s .Remove) = r) := by
  constructor
  · intro h0
    exact process_remove_zero h0
  · intro hpos
    obtain ⟨r, hr⟩ := prev_g_of_pos s.buffer hpos
    have hne : ¬get_offset s = 0 := by omega
    have hrb : is_codepoint_boundary s.buffer r = true := gb_cpb (prev_g_some hr).1
    have hv' : valid_cursor s.buffer (s.cursor.1, s.cursor.2) = true := hv
    have hb : is_codepoint_boundary s.buffer (get_offset s) = true :=
      (valid_cursor_offset hv').1
    refine ⟨r, hr, ?_, ?_, ?_⟩
    · rw [process_remove_pos hne, hr]
      show utf8Bytes (edit s.buffer ((some r).getD 0) (get_offset s) []) = _
      rw [utf8Bytes_take hrb, utf8Bytes_drop hb]
      simp [edit, utf8Bytes_append]
    · rw [process_remove_pos hne, hr]
      simp only [Option.getD_some]
    · rw [process_remove_pos hne, hr]
      exact get_offset_mk_offset_to_cursor _ _

/-- C6 witness: `Remove` on buffer `"ab"` with the cursor after `'b'`. -/
theorem remove_behaviour_witness :
    valid_cursor (['a', 'b'] : List Char) ((2, 0) : Nat × Nat) = true ∧
    (0 < get_offset ⟨(2, 0), ['a', 'b']⟩) ∧
    (0 < get_offset ⟨(2, 0), ['a', 'b']⟩ →
      ∃ r, prev_grapheme_offset ['a', 'b'] (get_offset ⟨(2, 0), ['a', 'b']⟩) = some r ∧
        utf8Bytes (process ⟨(2, 0), ['a', 'b']⟩ .Remove).buffer =
          (utf8Bytes ['a', 'b']).take r ++
            (utf8Bytes ['a', 'b']).drop (get_offset ⟨(2, 0), ['a', 'b']⟩) ∧
        (process ⟨(2, 0), ['a', 'b']⟩ .Remove).cursor =
          offset_to_cursor (process ⟨(2, 0), ['a', 'b']⟩ .Remove).buffer r ∧
        get_offset (process ⟨(2, 0), ['a', 'b']⟩ .Remove) = r) :=
  ⟨by decide, by decide, (remove_behaviour ⟨(2, 0), ['a', 'b']⟩ (by decide)).2⟩

/-- C5 (counterexample to the claim over all printable characters): from
the legal state buffer `"a"`, cursor `(1, 0)`, inserting the printable
combining mark U+0301 and pressing backspace deletes the whole grapheme
cluster `a + U+0301`, leaving an empty buffer instead of `"a"`. -/
theorem insert_remove_counterexample :
    valid_cursor ['a'] (1, 0) = true ∧
    isCombining (Char.ofNat 0x301) = true ∧
    processAll ⟨(1, 0), ['a']⟩ [.Insert (Char.ofNat 0x301), .Remove] ≠
      ⟨(1, 0), ['a']⟩ ∧
    (processAll ⟨(1, 0), ['a']⟩ [.Insert (Char.ofNat 0x301), .Remove]).buffer = [] := by
  refine ⟨by decide, by decide, by decide, by decide⟩

/-- C5 (amended): from every legal state (the spec §3 cursor invariant) and
for every printable character that is neither a combining mark nor a line
break, `Insert ch` followed by `Remove` restores the buffer and the cursor
exactly.  (A combining mark merges into the preceding grapheme cluster, so
the backspace deletes the whole cluster.) -/
theorem insert_remove_roundtrip (s : BufferState) (ch : Char)
    (hv : valid_cursor s.buffer s.cursor = true)
    (hch : isCombining ch = false) (_hnl : ch ≠ '\n') :
    processAll s [.Insert ch, .Remove] = s := by
  obtain ⟨⟨x, y⟩, l⟩ := s
  have hv' : valid_cursor l (x, y) = true := hv
  obtain ⟨hb, hle, hotc⟩ := valid_cursor_offset hv'
  have hsz := Char.utf8Size_pos ch
  have hpa : processAll ⟨(x, y), l⟩ [.Insert ch, .Remove] =
      process (process ⟨(x, y), l⟩ (.Insert ch)) .Remove := rfl
  rw [hpa, process_insert]
  dsimp only [get_offset]
  have hool' := ool_edit_insert (x := x) (y := y) [ch] hv'
  have hgo : get_offset ⟨(x + ch.utf8Size, y),
      edit l (offset_of_line l y + x) (offset_of_line l y + x) [ch]⟩ =
      offset_of_line l y + x + ch.utf8Size := by
    dsimp only [get_offset]
    rw [hool']
    omega
  have hne0 : ¬ get_offset ⟨(x + ch.utf8Size, y),
      edit l (offset_of_line l y + x) (offset_of_line l y + x) [ch]⟩ = 0 := by
    rw [hgo]; omega
  rw [process_remove_pos hne0, hgo, insert_prev_grapheme hb hch]
  simp only [Option.getD_some]
  rw [insert_then_delete ch hb, hotc]

/-- C5 witness: the round trip at buffer `"a"`, cursor `(1, 0)`, character
`'b'`. -/
theorem insert_remove_roundtrip_witness :
    valid_cursor ['a'] (1, 0) = true ∧ isCombining 'b' = false ∧ 'b' ≠ '\n' ∧
    processAll ⟨(1, 0), ['a']⟩ [.Insert 'b', .Remove] = ⟨(1, 0), ['a']⟩ :=
  ⟨by decide, by decide, by decide,
    insert_remove_roundtrip ⟨(1, 0), ['a']⟩ 'b' (by decide) (by decide) (by decide)⟩

/-- C7: with the cursor at the start of a multi-codepoint grapheme cluster
(a non-combining character followed by a non-empty run of combining marks),
`MoveRight` lands exactly at the end of the cluster — never strictly inside
it — and the following `MoveLeft` returns the whole state to exactly where
it started. -/
theorem grapheme_cluster_atomic (s : BufferState) (c : Char) (ms rest : List Char)
    (hv : valid_cursor s.buffer s.cursor = true)
    (hd : dropBytes s.buffer (get_offset s) = c :: (ms ++ rest))
    (hc : isCombining c = false) (_hms : ms ≠ [])
    (hall : ∀ m ∈ ms, isCombining m = true)
    (hrest : rest.head?.any isCombining = false) :
    get_offset (process s .MoveRight) = get_offset s + c.utf8Size + utf8Len ms ∧
    process (process s .MoveRight) .MoveLeft = s := by
  have hv' : valid_cursor s.buffer (s.cursor.1, s.cursor.2) = true := hv
  obtain ⟨hb0, hle0, hotc0⟩ := valid_cursor_offset hv'
  have hbo : is_codepoint_boundary s.buffer (get_offset s) = true := hb0
  have hotc : offset_to_cursor s.buffer (get_offset s) = (s.cursor.1, s.cursor.2) := hotc0
  have hsplit := takeBytes_append_dropBytes hbo
  have hA := utf8Len_takeBytes hbo
  have hl : s.buffer = takeBytes s.buffer (get_offset s) ++ (c :: (ms ++ rest)) := by
    rw [← hd]; exact hsplit.symm
  have hsz := Char.utf8Size_pos c
  have hgbb : isGraphemeBoundary s.buffer
      (get_offset s + c.utf8Size + utf8Len ms) = true := by
    have h0 := gb_cluster_end ms rest hl hrest
    rwa [hA] at h0
  have hno : ∀ j, get_offset s < j →
      j < get_offset s + c.utf8Size + utf8Len ms →
      isGraphemeBoundary s.buffer j = false := by
    have h0 := run_no_gb ms rest hl hall
    rwa [hA] at h0
  have hnext : next_grapheme_offset s.buffer (get_offset s) =
      some (get_offset s + c.utf8Size + utf8Len ms) :=
    next_g_eq (by omega) hgbb hno
  have hgbo : isGraphemeBoundary s.buffer (get_offset s) = true := by
    have h0 := gb_at_char (ms ++ rest) hl hc
    rwa [hA] at h0
  have hprev : prev_grapheme_offset s.buffer
      (get_offset s + c.utf8Size + utf8Len ms) = some (get_offset s) := by
    have hstep : get_offset s + c.utf8Size + utf8Len ms =
        (get_offset s + 1) + (c.utf8Size + utf8Len ms - 1) := by omega
    rw [hstep, prev_g_skip _ _ _ (fun j hj1 hj2 => hno j (by omega) (by omega))]
    simp only [prev_grapheme_offset]
    rw [if_pos hgbo]
  rw [process_moveright_some hnext]
  constructor
  · exact get_offset_mk_offset_to_cursor s.buffer _
  · have hgos1 : get_offset ({ s with cursor := (offset_to_cursor s.buffer
        (get_offset s + c.utf8Size + utf8Len ms)) } : BufferState) =
        get_offset s + c.utf8Size + utf8Len ms :=
      get_offset_mk_offset_to_cursor s.buffer _
    have hprev1 : prev_grapheme_offset
        ({ s with cursor := (offset_to_cursor s.buffer
          (get_offset s + c.utf8Size + utf8Len ms)) } : BufferState).buffer
        (get_offset { s with cursor := (offset_to_cursor s.buffer
          (get_offset s + c.utf8Size + utf8Len ms)) }) = some (get_offset s) := by
      rw [hgos1]
      exact hprev
    rw [process_moveleft_some hprev1]
    rw [hotc]

/-- C7 witness: the letter `'e'` followed by the combining grave accent
U+0300, cursor at the cluster start. -/
theorem grapheme_cluster_atomic_witness :
    valid_cursor ['e', Char.ofNat 0x300] (0, 0) = true ∧
    (get_offset (process ⟨(0, 0), ['e', Char.ofNat 0x300]⟩ .MoveRight) =
        get_offset ⟨(0, 0), ['e', Char.ofNat 0x300]⟩ + ('e').utf8Size +
          utf8Len [Char.ofNat 0x300] ∧
      process (process ⟨(0, 0), ['e', Char.ofNat 0x300]⟩ .MoveRight) .MoveLeft =
        ⟨(0, 0), ['e', Char.ofNat 0x300]⟩) :=
  ⟨by decide,
    grapheme_cluster_atomic ⟨(0, 0), ['e', Char.ofNat 0x300]⟩ 'e'
      [Char.ofNat 0x300] [] (by decide) (by decide) (by decide) (by decide)
      (by decide) (by decide)⟩

/-- C9: with the cursor at column 0 of a line `n > 0`, `MoveLeft` crosses to
the previous line: the new cursor is the byte length of line `n-1`'s content
on line `n-1` (the grapheme cluster preceding the cursor is the line break
ending line `n-1`), and the buffer is untouched. -/
theorem moveleft_cross_line (s : BufferState) (n : Nat)
    (hv : valid_cursor s.buffer s.cursor = true)
    (hcur : s.cursor = (0, n)) (hn : 0 < n) :
    (process s .MoveLeft).cursor =
      (utf8Len (lineContent s.buffer (n - 1)), n - 1) ∧
    (process s .MoveLeft).buffer = s.buffer := by
  obtain ⟨cur, l⟩ := s
  have hcur' : cur = (0, n) := hcur
  subst hcur'
  have hv' : valid_cursor l (0, n) = true := hv
  have hyc : n ≤ measureLines l := by
    have h0 := valid_line_lt hv'
    simp only [line_count] at h0
    omega
  obtain ⟨A, B, hl, hcA, hool⟩ := ool_decomp l n hn hyc
  have hgo : get_offset ⟨(0, n), l⟩ = utf8Len A + 1 := by
    show offset_of_line l n + 0 = utf8Len A + 1
    rw [hool]
  have hgbA : isGraphemeBoundary l (utf8Len A) = true :=
    gb_at_char B hl (by decide)
  have hprev : prev_grapheme_offset l (get_offset ⟨(0, n), l⟩) = some (utf8Len A) := by
    rw [hgo]
    simp only [prev_grapheme_offset]
    rw [if_pos hgbA]
  rw [process_moveleft_some hprev]
  refine ⟨?_, rfl⟩
  dsimp only
  have hy' : line_of_offset l (utf8Len A) = n - 1 := by
    conv_lhs => rw [hl]
    have h0 := loo_append A ('\n' :: B) 0
    rw [Nat.add_zero, loo_zero, Nat.add_zero] at h0
    rw [h0, hcA]
  have hst : offset_of_line l (n - 1) = offset_of_line A (n - 1) := by
    conv_lhs => rw [hl]
    exact ool_append ('\n' :: B) (le_of_eq hcA.symm)
  have hstb : is_codepoint_boundary A (offset_of_line A (n - 1)) = true :=
    ool_boundary A (n - 1)
  have hsA := takeBytes_append_dropBytes hstb
  have hlenA1 := utf8Len_takeBytes hstb
  have hcA1 : measureLines (takeBytes A (offset_of_line A (n - 1))) = n - 1 := by
    rw [measureLines_takeBytes hstb, loo_ool (le_of_eq hcA.symm)]
  have hcA2 : measureLines (dropBytes A (offset_of_line A (n - 1))) = 0 := by
    have h0 : measureLines (takeBytes A (offset_of_line A (n - 1)) ++
        dropBytes A (offset_of_line A (n - 1))) = measureLines A := by rw [hsA]
    rw [measureLines_append, hcA1, hcA] at h0
    omega
  have hdropl : dropBytes l (offset_of_line l (n - 1)) =
      dropBytes A (offset_of_line A (n - 1)) ++ '\n' :: B := by
    have h2 := dropBytes_append_len (takeBytes A (offset_of_line A (n - 1)))
      (dropBytes A (offset_of_line A (n - 1)) ++ '\n' :: B)
    rw [hlenA1] at h2
    have h3 : takeBytes A (offset_of_line A (n - 1)) ++
        (dropBytes A (offset_of_line A (n - 1)) ++ '\n' :: B) = l := by
      rw [← List.append_assoc, hsA, ← hl]
    rw [h3] at h2
    rw [hst]
    exact h2
  have hcontent : lineContent l (n - 1) = dropBytes A (offset_of_line A (n - 1)) := by
    rw [lineContent, hdropl]
    exact takeLine_append_newline _ B hcA2
  have hlen2 : utf8Len (lineContent l (n - 1)) =
      utf8Len A - offset_of_line l (n - 1) := by
    rw [hcontent, hst]
    have h0 : utf8Len (takeBytes A (offset_of_line A (n - 1))) +
        utf8Len (dropBytes A (offset_of_line A (n - 1))) = utf8Len A := by
      rw [← utf8Len_append, hsA]
    omega
  simp only [offset_to_cursor, hy']
  refine Prod.ext ?_ rfl
  dsimp only
  rw [hlen2]

/-- C9 witness: `MoveLeft` at the start of line 1 of `"ab\ncd"`. -/
theorem moveleft_cross_line_witness :
    valid_cursor (String.toList "ab\ncd") (0, 1) = true ∧
    ((process ⟨(0, 1), String.toList "ab\ncd"⟩ .MoveLeft).cursor =
        (utf8Len (lineContent (String.toList "ab\ncd") (1 - 1)), 1 - 1) ∧
      (process ⟨(0, 1), String.toList "ab\ncd"⟩ .MoveLeft).buffer =
        String.toList "ab\ncd") :=
  ⟨by decide,
    moveleft_cross_line ⟨(0, 1), String.toList "ab\ncd"⟩ 1 (by decide) rfl
      (by decide)⟩

end Eminent
